import Mathlib

set_option maxHeartbeats 1000000

/-!
Shallow embedding of src/bendersDual.py: a Benders decomposition engine for
the multi-item multi-period capacitated lot-sizing problem (MIMPLS).

Conventions of the embedding:
* Python floats are modelled as exact rationals; the code only copies,
  compares, adds, subtracts and multiplies the quantities the claims are
  about, so the control flow is the same.
* Python lists indexed by item j, period t (and by r for the half-triangular
  production variables) are modelled as functions out of Nat.
* A CPLEX solve is an oracle: the solver outcome (optimal with dual values,
  infeasible with a Farkas certificate, or anything else) is an input of the
  embedded function, exactly the three cases the source branches on.
* Accumulation loops (appending cut coefficients, running right-hand sides)
  are embedded as folds over the same index lists the Python loops walk.
-/

namespace BendersLS

/-- Problem data, as read by Instance.__init__ of the source: demands d,
production costs c, setup costs f, holding costs h, resource usage a, setup
resource consumption m, per-period capacity cap, for nI items and nP
periods. -/
structure Instance where
  nI : Nat
  nP : Nat
  d : Nat → Nat → ℚ
  c : Nat → Nat → ℚ
  f : Nat → Nat → ℚ
  h : Nat → Nat → ℚ
  a : Nat → Nat → ℚ
  m : Nat → Nat → ℚ
  cap : Nat → ℚ

/-- The backward accumulation loop of Instance.__init__ (lines 280-288):
aux[0] = d[j][nP-1] and aux[k+1] = aux[k] + d[j][nP-2-k]; entry k of the
accumulator before the final reversal. -/
def dcumAux (inp : Instance) (j : Nat) : Nat → ℚ
  | 0 => inp.d j (inp.nP - 1)
  | k + 1 => dcumAux inp j k + inp.d j (inp.nP - 2 - k)

/-- Cumulative demand dcum[j][t] of the source: the reversed accumulator, so
position t holds accumulator entry nP-1-t. -/
def dcum (inp : Instance) (j t : Nat) : ℚ := dcumAux inp j (inp.nP - 1 - t)

/-- max_prod[j][t] of Instance.__init__ (lines 292-297): the minimum of the
capacity bound (cap[t]-m[j][t])/a[j][t] and the cumulative demand. -/
def max_prod (inp : Instance) (j t : Nat) : ℚ :=
  min ((inp.cap t - inp.m j t) / inp.a j t) (dcum inp j t)

/-- A master-problem variable: a setup variable y[j][t] or the surrogate cost
variable zHat (z_ilo in the source's master). -/
inductive MasterVar where
  | y (j t : Nat)
  | zHat
deriving DecidableEq

/-- Outcome of the worker-LP solve, as solveSubPrimal branches on it:
optimal with an objective and dual values looked up by the constraint labels
lCapacity / lDemand / lLogic (the third epsilon index is the offset r-t of
the half-triangular storage), infeasible with the flat Farkas certificate
list, or any other status. -/
inductive SubStatus where
  | optimal (obj : ℚ) (lam : Nat → ℚ) (omega : Nat → Nat → ℚ) (eps : Nat → Nat → Nat → ℚ)
  | infeasible (farkas : Nat → ℚ)
  | other

/-- What solveSubPrimal returns and stores: the pair (cutType, zSub) together
with the cut worker.cutLhs / worker.cutRhs left in the worker object. -/
structure SubResult where
  cutType : Nat
  zSub : ℚ
  cutLhs : List (MasterVar × ℚ)
  cutRhs : ℚ

/-- The row-major (j, t) index list walked by the nested cut-building loops
`for j in range(nI): for t in range(nP):` of solveSubPrimal. -/
def jtList (nI nP : Nat) : List (Nat × Nat) :=
  (List.range nI).flatMap fun j => (List.range nP).map fun t => (j, t)

/-- The optimality-cut coefficient exactly as line 1036-1038 computes it:
m[j][t]*lambda[t] - sum of -epsilon[j][t][r-t]*d[j][r] over r in [t, nP). -/
def optCoeff (inp : Instance) (lam : Nat → ℚ) (eps : Nat → Nat → Nat → ℚ) (j t : Nat) : ℚ :=
  inp.m j t * lam t - ∑ r ∈ Finset.Ico t inp.nP, (-(eps j t (r - t)) * inp.d j r)

/-- The optimality-cut loop of lines 1033-1044: starting from cutVars = [],
cutRhs = -zSub, append (y[j][t], coeff) and add coeff*ySol[j][t] to the
right-hand side, in row-major order. -/
def optLoop (inp : Instance) (ySol : Nat → Nat → ℚ) (lam : Nat → ℚ)
    (eps : Nat → Nat → Nat → ℚ) (zSub : ℚ) : List (MasterVar × ℚ) × ℚ :=
  (jtList inp.nI inp.nP).foldl
    (fun acc jt =>
      (acc.1 ++ [(MasterVar.y jt.1 jt.2, optCoeff inp lam eps jt.1 jt.2)],
       acc.2 + optCoeff inp lam eps jt.1 jt.2 * ySol jt.1 jt.2))
    ([], -zSub)

/-- The feasibility-cut coefficient exactly as lines 1008-1010 compute it:
-m[j][t]*lambda[t] + sum of epsilon[j][t][r-t]*d[j][r] over r in [t, nP). -/
def feasCoeff (inp : Instance) (lam : Nat → ℚ) (eps : Nat → Nat → Nat → ℚ) (j t : Nat) : ℚ :=
  -inp.m j t * lam t + ∑ r ∈ Finset.Ico t inp.nP, eps j t (r - t) * inp.d j r

/-- The feasibility-cut loop of lines 1003-1015: starting from cutVars = [],
cutRhs = 0, append (y[j][t], coeff) and subtract d[j][t]*omega[j][t] from the
right-hand side, in row-major order. -/
def feasLoop (inp : Instance) (lam : Nat → ℚ) (omega : Nat → Nat → ℚ)
    (eps : Nat → Nat → Nat → ℚ) : List (MasterVar × ℚ) × ℚ :=
  (jtList inp.nI inp.nP).foldl
    (fun acc jt =>
      (acc.1 ++ [(MasterVar.y jt.1 jt.2, feasCoeff inp lam eps jt.1 jt.2)],
       acc.2 - inp.d jt.1 jt.2 * omega jt.1 jt.2))
    ([], 0)

/-- Capacity block of the Farkas certificate (line 977): lambda_sol[t] =
farkas[t], since the capacity constraints are created first. -/
def farkasLambda (fk : Nat → ℚ) (t : Nat) : ℚ := fk t

/-- Demand block of the Farkas certificate (lines 979-980): omega_sol[j][t] =
farkas[nP + j*nP + t]. -/
def farkasOmega (inp : Instance) (fk : Nat → ℚ) (j t : Nat) : ℚ :=
  fk (inp.nP + j * inp.nP + t)

/-- Offset of row t inside one item's half-triangular logic block: the running
counter pp of lines 987-996 advances by nP - s for each completed row s. -/
def triOff (nP t : Nat) : Nat := ∑ s ∈ Finset.range t, (nP - s)

/-- Logic block of the Farkas certificate (lines 982-996): epsilon_sol[j][t]
at offset i (that is, for constraint logic[j][t][t+i]) is the flat entry at
nP + nP*nI + (full item blocks) + (full rows of item j) + i. -/
def farkasEps (inp : Instance) (fk : Nat → ℚ) (j t i : Nat) : ℚ :=
  fk (inp.nP + inp.nP * inp.nI + (j * triOff inp.nP inp.nP + triOff inp.nP t + i))

/-- WorkerLPPrimal.solveSubPrimal, lines 961-1055: branch on the solver
status; on infeasible build the feasibility cut from the Farkas certificate
(cutType 1), on optimal build the generalized Benders optimality cut from the
dual values and append the zHat term with coefficient -1 (cutType 2);
otherwise leave cutType 0, the sentinel zSub = -1 and the empty cut. -/
def solveSubPrimal (inp : Instance) (ySol : Nat → Nat → ℚ) (st : SubStatus) : SubResult :=
  match st with
  | SubStatus.infeasible fk =>
      let body := feasLoop inp (farkasLambda fk) (farkasOmega inp fk) (farkasEps inp fk)
      { cutType := 1
        zSub := -1
        cutLhs := body.1
        cutRhs := body.2 - ∑ t ∈ Finset.range inp.nP, inp.cap t * farkasLambda fk t }
  | SubStatus.optimal obj lam _omega eps =>
      let body := optLoop inp ySol lam eps obj
      { cutType := 2
        zSub := obj
        cutLhs := body.1 ++ [(MasterVar.zHat, -1)]
        cutRhs := body.2 }
  | SubStatus.other =>
      { cutType := 0, zSub := -1, cutLhs := [], cutRhs := 0 }

/-- A constraint label of the worker LP, as the source names them:
"capacity.t", "demand.j.r", "logic.j.t.r". -/
inductive ConstrName where
  | capacity (t : Nat)
  | demand (j r : Nat)
  | logic (j t r : Nat)
deriving DecidableEq

/-- The mutable right-hand-side state of the worker LP: the value each named
constraint currently carries. -/
def SubLPRhs : Type := ConstrName → ℚ

/-- One cpx.linear_constraints.set_rhs call. -/
def setRhs (n : ConstrName) (v : ℚ) (s : SubLPRhs) : SubLPRhs :=
  fun n2 => if n2 = n then v else s n2

/-- Right-hand sides as WorkerLPPrimal.__init__ creates them (lines 861-898):
capacity and logic constraints start at 0, demand[j][r] is created with rhs
d[j][r]. -/
def initSubRhs (inp : Instance) : SubLPRhs :=
  fun n =>
    match n with
    | ConstrName.capacity _ => 0
    | ConstrName.demand j r => inp.d j r
    | ConstrName.logic _ _ _ => 0

/-- The (j, t, r) triples, r in [t, nP), walked by the triple loop
`for j: for t: for r in range(t, nP):` of the logic constraints. -/
def logicTriples (nI nP : Nat) : List (Nat × Nat × Nat) :=
  (List.range nI).flatMap fun j =>
    (List.range nP).flatMap fun t =>
      (List.range' t (nP - t)).map fun r => (j, t, r)

/-- The capacity rhs-update loop of solveSubPrimal (lines 941-944): for each
t set capacity[t] to cap[t] minus the setup consumption sum over items. -/
def updateCapRhs (inp : Instance) (ySol : Nat → Nat → ℚ) (s : SubLPRhs) : SubLPRhs :=
  (List.range inp.nP).foldl
    (fun s2 t =>
      setRhs (ConstrName.capacity t)
        (inp.cap t - ∑ j ∈ Finset.range inp.nI, inp.m j t * ySol j t) s2)
    s

/-- The logic rhs-update loop of solveSubPrimal (lines 947-952): for each
j, t, r with r >= t set logic[j][t][r] to d[j][r]*ySol[j][t]. -/
def updateLogicRhs (inp : Instance) (ySol : Nat → Nat → ℚ) (s : SubLPRhs) : SubLPRhs :=
  (logicTriples inp.nI inp.nP).foldl
    (fun s2 x =>
      setRhs (ConstrName.logic x.1 x.2.1 x.2.2) (inp.d x.1 x.2.2 * ySol x.1 x.2.1) s2)
    s

/-- Both rhs-update phases of solveSubPrimal, in source order: capacity
first, then logic; no other set_rhs call occurs in the function. -/
def updateSubRhs (inp : Instance) (ySol : Nat → Nat → ℚ) (s : SubLPRhs) : SubLPRhs :=
  updateLogicRhs inp ySol (updateCapRhs inp ySol s)

/-- A whole solveSubPrimal call seen with its state: the right-hand sides are
rewritten first, then cpx.solve() runs on the updated LP (the oracle `solver`
is therefore consulted on the updated state), then the cut is built. -/
def solveSubPrimalCall (inp : Instance) (ySol : Nat → Nat → ℚ) (s : SubLPRhs)
    (solver : SubLPRhs → SubStatus) : SubLPRhs × SubResult :=
  let s2 := updateSubRhs inp ySol s
  (s2, solveSubPrimal inp ySol (solver s2))

/-- The mutable state of the newIOCycle stabilized cut loop that its
stopping logic reads and writes (lines 1355-1390): the step parameter
_lambda, the perturbation _delta, the non-improvement counter, the best LP
bound so far and the stopping flag. -/
structure IOState where
  lam : ℚ
  delta : ℚ
  noImprov : Nat
  bestLB : ℚ
  stopping : Bool
deriving DecidableEq

/-- The branch chain of newIOCycle (lines 1379-1390), given the master LP
objective zLP of the current iteration. -/
def boundUpdate (zLP : ℚ) (s : IOState) : IOState :=
  if zLP > s.bestLB then { s with bestLB := zLP }
  else if s.noImprov ≤ 5 then { s with noImprov := s.noImprov + 1 }
  else if s.delta = 0 then { s with stopping := true }
  else if s.lam = 1 then { s with delta := 0, noImprov := 0 }
  else { s with lam := 1, noImprov := 0 }

/-- newIOCycle's initial state (lines 1355-1369): _lambda = 0.2,
_delta = 0.00002, noImprov = 0, bestLB = 0.0, not stopping.
(mkRat is used so that the constants reduce inside the kernel;
mkRat 1 5 = 0.2 and mkRat 1 50000 = 0.00002 exactly.) -/
def ioInit : IOState :=
  { lam := mkRat 1 5, delta := mkRat 1 50000, noImprov := 0, bestLB := 0, stopping := false }

/-- The master state bendersDual threads around newIOCycle: the loop state
plus whether the y variables are currently binary. newIOCycle begins by
switching the problem type to LP (line 1361), so the loop starts and runs in
continuous mode. -/
structure BDState where
  ioSt : IOState
  intMode : Bool
deriving DecidableEq

/-- State on entry of the while loop of newIOCycle. -/
def bdInit : BDState := { ioSt := ioInit, intMode := false }

/-- One iteration of the while loop, fed with the master LP objective zLP of
that iteration; the loop body never touches the variable domains. -/
def bdStep (zLP : ℚ) (s : BDState) : BDState :=
  { ioSt := boundUpdate zLP s.ioSt, intMode := s.intMode }

/-- The while loop of newIOCycle driven by the oracle sequence zs of master
LP objectives: while not stopping, run one more iteration. -/
def bdLoop (zs : Nat → ℚ) : Nat → BDState
  | 0 => bdInit
  | n + 1 =>
      if (bdLoop zs n).ioSt.stopping then bdLoop zs n
      else bdStep (zs n) (bdLoop zs n)

/-- bendersDual after newIOCycle returns (lines 1584-1595): only then is the
problem switched to MILP and every y[j][t] set to binary. -/
def bendersDualSwitch (zs : Nat → ℚ) (fuel : Nat) : BDState :=
  { ioSt := (bdLoop zs fuel).ioSt, intMode := true }

/-- _EPSI of the source: sys.float_info.epsilon, exactly 2^-52. -/
def epsiQ : ℚ := mkRat 1 (2 ^ 52)

/-- _INFTY of the source: sys.float_info.max, exactly (2^53 - 1) * 2^971. -/
def infQ : ℚ := ((2 : ℚ) ^ 53 - 1) * 2 ^ 971

/-- The state of the Mode A (classic iterative) Benders cycle of bendersDual
(lines 1599-1647). -/
structure AState where
  ubBest : ℚ
  bestLB : ℚ
  nIters : Nat
  nrCuts : Nat
  cuts : List (List (MasterVar × ℚ) × ℚ)
  stopping : Bool

/-- State on entry of the Mode A while loop (lines 1599-1603). -/
def aInit : AState :=
  { ubBest := infQ, bestLB := -infQ, nIters := 0, nrCuts := 0, cuts := [], stopping := false }

/-- One iteration of the Mode A while loop (lines 1608-1647): re-solve the
integer master (the oracle hands its objective lb, surrogate value zHatV and
incumbent ySol), call solveSubPrimal at the incumbent, on an optimality cut
update the best upper bound with fixedCost + zSub where fixedCost =
lb - zHatV, add the returned cut unconditionally, and set the stopping flag
when ubBest - bestLB has dropped below _EPSI. -/
def modeAStep (inp : Instance) (lb zHatV : ℚ) (ySol : Nat → Nat → ℚ) (st : SubStatus)
    (s : AState) : AState :=
  let r := solveSubPrimal inp ySol st
  let ub2 :=
    if r.cutType = 2 then
      if lb - zHatV + r.zSub < s.ubBest then lb - zHatV + r.zSub else s.ubBest
    else s.ubBest
  { ubBest := ub2
    bestLB := lb
    nIters := s.nIters + 1
    nrCuts := s.nrCuts + 1
    cuts := s.cuts ++ [(r.cutLhs, r.cutRhs)]
    stopping := if ub2 - lb < epsiQ then true else s.stopping }

/-- The Mode A while loop, driven by the oracle sequence ins of master solves
(objective, zHat value, incumbent y, subproblem solver outcome). -/
def modeALoop (inp : Instance) (ins : Nat → ℚ × ℚ × (Nat → Nat → ℚ) × SubStatus) :
    Nat → AState
  | 0 => aInit
  | n + 1 =>
      if (modeALoop inp ins n).stopping then modeALoop inp ins n
      else
        modeAStep inp (ins n).1 (ins n).2.1 (ins n).2.2.1 (ins n).2.2.2 (modeALoop inp ins n)

/-- Sense of a constraint handed to cplex ("L", "G" or "E"). -/
inductive CutSense where
  | le
  | ge
  | eq
deriving DecidableEq

/-- The per-callback trackers BendersLazyConsCallback keeps on self. -/
structure CBState where
  bestLB : ℚ
  bestUB : ℚ
  nIter : Nat
deriving DecidableEq

/-- A lazy constraint as the callback's self.add call injects it: left-hand
side, sense, right-hand side, and whether it was registered purging-eligible
(use = self.use_constraint.purge). -/
structure AddedCut where
  lhs : List (MasterVar × ℚ)
  sense : CutSense
  rhs : ℚ
  purgeable : Bool

/-- Modelled from the spec: the body of BendersLazyConsCallback.__call__
(lines 112-164). Line 144 of the source, the read of the incumbent ySol, is
a Python syntax error (the parenthesis opened by self.get_values is closed
by the list bracket), so the source file cannot be parsed; the read is
modelled as the evidently intended per-item get_values, and everything else
follows the source: take the max/min of the bound trackers with the node
bounds, call solveSubPrimal at the incumbent, inject its cut with sense "L"
as a purging-eligible lazy constraint, bump nIter, and return without
touching the search (the returned Bool, false, is whether the callback
terminates the search). -/
def callbackStep (inp : Instance) (objMaster lb zHatV : ℚ) (ySol : Nat → Nat → ℚ)
    (st : SubStatus) (s : CBState) : CBState × AddedCut × Bool :=
  let bestLB := if lb > s.bestLB then lb else s.bestLB
  let bestUB := if objMaster < s.bestUB then objMaster else s.bestUB
  let r := solveSubPrimal inp ySol st
  ({ bestLB := bestLB, bestUB := bestUB, nIter := s.nIter + 1 },
   { lhs := r.cutLhs, sense := CutSense.le, rhs := r.cutRhs, purgeable := true },
   false)

/-- The (j, t, r) index triples of the z variables WorkerLPPrimal.__init__
creates (lines 847-858): for each j and t, one variable per r in [t, nP). -/
def workerZVars (nI nP : Nat) : List (Nat × Nat × Nat) :=
  (List.range nI).flatMap fun j =>
    (List.range nP).flatMap fun t =>
      (List.range' t (nP - t)).map fun r => (j, t, r)

/-- The (j, t, r) triples referenced by the worker's capacity constraints
(lines 862-874): for each t and j, z_ilo[j][t][r-t] for r in [t, nP). -/
def workerCapacityRefs (nI nP : Nat) : List (Nat × Nat × Nat) :=
  (List.range nP).flatMap fun t =>
    (List.range nI).flatMap fun j =>
      (List.range' t (nP - t)).map fun r => (j, t, r)

/-- The (j, t, r) triples referenced by the worker's demand constraints
(lines 877-886): for each j and r, z_ilo[j][t][r-t] for t in [0, r]. -/
def workerDemandRefs (nI nP : Nat) : List (Nat × Nat × Nat) :=
  (List.range nI).flatMap fun j =>
    (List.range nP).flatMap fun r =>
      (List.range (r + 1)).map fun t => (j, t, r)

/-- The (j, t, r) triples referenced by the worker's logic constraints
(lines 888-898): z_ilo[j][t][r-t] for r in [t, nP). -/
def workerLogicRefs (nI nP : Nat) : List (Nat × Nat × Nat) :=
  (List.range nI).flatMap fun j =>
    (List.range nP).flatMap fun t =>
      (List.range' t (nP - t)).map fun r => (j, t, r)

/-- The z variables MIPReformulation.__init__ creates (lines 689-700): the
same half-triangular index set. -/
def mipZVars (nI nP : Nat) : List (Nat × Nat × Nat) :=
  (List.range nI).flatMap fun j =>
    (List.range nP).flatMap fun t =>
      (List.range' t (nP - t)).map fun r => (j, t, r)

/-- The triples referenced by MIPReformulation's demand constraints
(lines 703-710). -/
def mipDemandRefs (nI nP : Nat) : List (Nat × Nat × Nat) :=
  (List.range nI).flatMap fun j =>
    (List.range nP).flatMap fun r =>
      (List.range (r + 1)).map fun t => (j, t, r)

/-- The triples referenced by MIPReformulation's capacity constraints
(lines 713-724). -/
def mipCapacityRefs (nI nP : Nat) : List (Nat × Nat × Nat) :=
  (List.range nP).flatMap fun t =>
    (List.range nI).flatMap fun j =>
      (List.range' t (nP - t)).map fun r => (j, t, r)

/-- The triples referenced by MIPReformulation's logic constraints
(lines 727-735). -/
def mipLogicRefs (nI nP : Nat) : List (Nat × Nat × Nat) :=
  (List.range nI).flatMap fun j =>
    (List.range nP).flatMap fun t =>
      (List.range' t (nP - t)).map fun r => (j, t, r)

/-- The half-triangular index discipline: every (j, t, r) in the list has
t ≤ r < nP, so the stored offset r - t is a valid index into the row of
length nP - t and no variable with r < t is ever touched. -/
def halfTri (nP : Nat) (l : List (Nat × Nat × Nat)) : Bool :=
  l.all fun x => decide (x.2.1 ≤ x.2.2 ∧ x.2.2 < nP)

/-- Concrete instance refuting the unconditional nonnegativity of max_prod:
one item, one period, zero demand, zero capacity, but setup consumption
m = 1, so (cap - m)/a = -1 < 0 while all demands are nonnegative. -/
def cexInp : Instance :=
  { nI := 1, nP := 1
    d := fun _ _ => 0, c := fun _ _ => 0, f := fun _ _ => 0, h := fun _ _ => 0
    a := fun _ _ => 1, m := fun _ _ => 1, cap := fun _ => 0 }

/-- Oracle objective sequence for the stabilized loop: three iterations
without improvement (zLP = 0 = bestLB), then an improving one (zLP = 1). -/
def cexZs : Nat → ℚ := fun n => if n < 3 then 0 else 1

/-! ### Helper lemmas -/

/-- Sum of a mapped List.range equals the Finset.range sum. -/
theorem sum_map_range (g : Nat → ℚ) : ∀ n : Nat,
    ((List.range n).map g).sum = ∑ i ∈ Finset.range n, g i := by
  intro n
  induction n with
  | zero => simp
  | succ n ih =>
      rw [List.range_succ, List.map_append, List.sum_append, Finset.sum_range_succ, ih]
      simp

/-- Peeling the last item block off the row-major index list. -/
theorem jtList_succ (nI nP : Nat) :
    jtList (nI + 1) nP = jtList nI nP ++ (List.range nP).map (fun t => (nI, t)) := by
  simp [jtList, List.range_succ]

/-- The sum over the row-major index list is the double Finset sum. -/
theorem jtList_map_sum (nP : Nat) (F : Nat × Nat → ℚ) : ∀ nI : Nat,
    ((jtList nI nP).map F).sum = ∑ j ∈ Finset.range nI, ∑ t ∈ Finset.range nP, F (j, t) := by
  intro nI
  induction nI with
  | zero => simp [jtList]
  | succ n ih =>
      rw [jtList_succ, List.map_append, List.sum_append, ih, Finset.sum_range_succ,
        List.map_map]
      rw [show (F ∘ fun t => (n, t)) = fun t => F (n, t) from rfl,
        sum_map_range (fun t => F (n, t)) nP]

/-- Closed form of an append-and-add accumulation fold. -/
theorem foldl_cut_add {α : Type} (g : α → MasterVar × ℚ) (k : α → ℚ) :
    ∀ (l : List α) (p : List (MasterVar × ℚ)) (q : ℚ),
      l.foldl (fun acc x => (acc.1 ++ [g x], acc.2 + k x)) (p, q)
        = (p ++ l.map g, q + (l.map k).sum) := by
  intro l
  induction l with
  | nil => intro p q; simp
  | cons b l ih =>
      intro p q
      simp only [List.foldl_cons, List.map_cons, List.sum_cons]
      rw [ih]
      simp [add_assoc]

/-- Closed form of an append-and-subtract accumulation fold. -/
theorem foldl_cut_sub {α : Type} (g : α → MasterVar × ℚ) (k : α → ℚ) :
    ∀ (l : List α) (p : List (MasterVar × ℚ)) (q : ℚ),
      l.foldl (fun acc x => (acc.1 ++ [g x], acc.2 - k x)) (p, q)
        = (p ++ l.map g, q - (l.map k).sum) := by
  intro l
  induction l with
  | nil => intro p q; simp
  | cons b l ih =>
      intro p q
      simp only [List.foldl_cons, List.map_cons, List.sum_cons]
      rw [ih]
      simp only [Prod.mk.injEq]
      refine ⟨by simp, by ring⟩

/-- The optimality-cut loop in closed form. -/
theorem optLoop_eq (inp : Instance) (ySol : Nat → Nat → ℚ) (lam : Nat → ℚ)
    (eps : Nat → Nat → Nat → ℚ) (zSub : ℚ) :
    optLoop inp ySol lam eps zSub
      = ((jtList inp.nI inp.nP).map
          (fun jt => (MasterVar.y jt.1 jt.2, optCoeff inp lam eps jt.1 jt.2)),
        -zSub + ((jtList inp.nI inp.nP).map
          (fun jt => optCoeff inp lam eps jt.1 jt.2 * ySol jt.1 jt.2)).sum) := by
  unfold optLoop
  rw [foldl_cut_add (fun jt => (MasterVar.y jt.1 jt.2, optCoeff inp lam eps jt.1 jt.2))
    (fun jt => optCoeff inp lam eps jt.1 jt.2 * ySol jt.1 jt.2) (jtList inp.nI inp.nP) [] (-zSub)]
  simp

/-- The feasibility-cut loop in closed form. -/
theorem feasLoop_eq (inp : Instance) (lam : Nat → ℚ) (omega : Nat → Nat → ℚ)
    (eps : Nat → Nat → Nat → ℚ) :
    feasLoop inp lam omega eps
      = ((jtList inp.nI inp.nP).map
          (fun jt => (MasterVar.y jt.1 jt.2, feasCoeff inp lam eps jt.1 jt.2)),
        0 - ((jtList inp.nI inp.nP).map
          (fun jt => inp.d jt.1 jt.2 * omega jt.1 jt.2)).sum) := by
  unfold feasLoop
  rw [foldl_cut_sub (fun jt => (MasterVar.y jt.1 jt.2, feasCoeff inp lam eps jt.1 jt.2))
    (fun jt => inp.d jt.1 jt.2 * omega jt.1 jt.2) (jtList inp.nI inp.nP) [] 0]
  simp

/-- The coefficient of line 1036-1038 in the spec's algebraic form: the
subtracted sum of negated products is the added sum of products. -/
theorem optCoeff_eq (inp : Instance) (lam : Nat → ℚ) (eps : Nat → Nat → Nat → ℚ)
    (j t : Nat) :
    optCoeff inp lam eps j t
      = inp.m j t * lam t + ∑ r ∈ Finset.Ico t inp.nP, eps j t (r - t) * inp.d j r := by
  unfold optCoeff
  rw [sub_eq_add_neg, ← Finset.sum_neg_distrib]
  congr 1
  refine Finset.sum_congr rfl fun r _ => by ring

/-! ### Claim theorems -/

/-- Claim C1: on an optimal subproblem solve with duals lambda (capacity),
omega (demand) and epsilon (logic), solveSubPrimal emits the optimality cut
whose coefficient on y[j][t] is m[j][t]*lambda[t] + the sum over r >= t of
epsilon[j][t][r]*d[j][r] (epsilon stored at offset r-t), whose coefficient
on zHat is -1 (appended last), and whose right-hand side is
-zSub + the sum over all j, t of coeff[j][t]*ySol[j][t]. -/
theorem C1_optimality_cut (inp : Instance) (ySol : Nat → Nat → ℚ) (obj : ℚ)
    (lam : Nat → ℚ) (om : Nat → Nat → ℚ) (eps : Nat → Nat → Nat → ℚ) :
    (solveSubPrimal inp ySol (SubStatus.optimal obj lam om eps)).cutLhs
      = (jtList inp.nI inp.nP).map
          (fun jt => (MasterVar.y jt.1 jt.2,
            inp.m jt.1 jt.2 * lam jt.2
              + ∑ r ∈ Finset.Ico jt.2 inp.nP, eps jt.1 jt.2 (r - jt.2) * inp.d jt.1 r))
        ++ [(MasterVar.zHat, -1)]
    ∧ (solveSubPrimal inp ySol (SubStatus.optimal obj lam om eps)).cutRhs
      = -obj + ∑ j ∈ Finset.range inp.nI, ∑ t ∈ Finset.range inp.nP,
          (inp.m j t * lam t + ∑ r ∈ Finset.Ico t inp.nP, eps j t (r - t) * inp.d j r)
            * ySol j t
    ∧ (solveSubPrimal inp ySol (SubStatus.optimal obj lam om eps)).cutType = 2
    ∧ (solveSubPrimal inp ySol (SubStatus.optimal obj lam om eps)).zSub = obj := by
  refine ⟨?_, ?_, rfl, rfl⟩
  · show (optLoop inp ySol lam eps obj).1 ++ [(MasterVar.zHat, -1)] = _
    rw [optLoop_eq]
    simp only [optCoeff_eq]
  · show (optLoop inp ySol lam eps obj).2 = _
    rw [optLoop_eq]
    simp only
    rw [jtList_map_sum inp.nP (fun jt => optCoeff inp lam eps jt.1 jt.2 * ySol jt.1 jt.2)
      inp.nI]
    simp only [optCoeff_eq]

/-- Claim C2: on an infeasible subproblem solve, solveSubPrimal slices the
flat Farkas certificate into lambda (capacity block), omega (demand block)
and epsilon (logic block), and emits the feasibility cut whose coefficient
on y[j][t] is -m[j][t]*lambda[t] + the sum over r >= t of
epsilon[j][t][r]*d[j][r], with no zHat term, and right-hand side equal to
-(sum over j, t of d[j][t]*omega[j][t]) - sum over t of cap[t]*lambda[t];
the infeasible branch (cutType 1) is taken exactly on the infeasible status,
the other two statuses yielding cutType 2 and 0 respectively. -/
theorem C2_feasibility_cut (inp : Instance) (ySol : Nat → Nat → ℚ) (fk : Nat → ℚ) :
    (solveSubPrimal inp ySol (SubStatus.infeasible fk)).cutLhs
      = (jtList inp.nI inp.nP).map
          (fun jt => (MasterVar.y jt.1 jt.2,
            -inp.m jt.1 jt.2 * farkasLambda fk jt.2
              + ∑ r ∈ Finset.Ico jt.2 inp.nP,
                  farkasEps inp fk jt.1 jt.2 (r - jt.2) * inp.d jt.1 r))
    ∧ (solveSubPrimal inp ySol (SubStatus.infeasible fk)).cutRhs
      = -(∑ j ∈ Finset.range inp.nI, ∑ t ∈ Finset.range inp.nP,
            inp.d j t * farkasOmega inp fk j t)
        - ∑ t ∈ Finset.range inp.nP, inp.cap t * farkasLambda fk t
    ∧ (solveSubPrimal inp ySol (SubStatus.infeasible fk)).cutType = 1
    ∧ (solveSubPrimal inp ySol (SubStatus.infeasible fk)).zSub = -1
    ∧ (∀ obj lam om eps,
        (solveSubPrimal inp ySol (SubStatus.optimal obj lam om eps)).cutType = 2)
    ∧ (solveSubPrimal inp ySol SubStatus.other).cutType = 0 := by
  refine ⟨?_, ?_, rfl, rfl, fun obj lam om eps => rfl, rfl⟩
  · show (feasLoop inp (farkasLambda fk) (farkasOmega inp fk) (farkasEps inp fk)).1 = _
    rw [feasLoop_eq]
    simp [feasCoeff]
  · show (feasLoop inp (farkasLambda fk) (farkasOmega inp fk) (farkasEps inp fk)).2
        - ∑ t ∈ Finset.range inp.nP, inp.cap t * farkasLambda fk t = _
    rw [feasLoop_eq]
    simp only
    rw [jtList_map_sum inp.nP (fun jt => inp.d jt.1 jt.2 * farkasOmega inp fk jt.1 jt.2)
      inp.nI]
    ring

/-- Claim C10: solveSubPrimal always returns cutType 0, 1 or 2; 2 with zSub
the LP objective on an optimal status, 1 with the sentinel zSub = -1 on an
infeasible status, and 0 with zSub = -1 and an empty cut (no variables,
right-hand side 0) on any other status, so zSub = -1 exactly when no
optimality cut is produced. -/
theorem C10_return_contract (inp : Instance) (ySol : Nat → Nat → ℚ) :
    (∀ fk, (solveSubPrimal inp ySol (SubStatus.infeasible fk)).cutType = 1
      ∧ (solveSubPrimal inp ySol (SubStatus.infeasible fk)).zSub = -1)
    ∧ (∀ obj lam om eps,
        (solveSubPrimal inp ySol (SubStatus.optimal obj lam om eps)).cutType = 2
        ∧ (solveSubPrimal inp ySol (SubStatus.optimal obj lam om eps)).zSub = obj)
    ∧ ((solveSubPrimal inp ySol SubStatus.other).cutType = 0
      ∧ (solveSubPrimal inp ySol SubStatus.other).zSub = -1
      ∧ (solveSubPrimal inp ySol SubStatus.other).cutLhs = []
      ∧ (solveSubPrimal inp ySol SubStatus.other).cutRhs = 0)
    ∧ (∀ st, ((solveSubPrimal inp ySol st).cutType = 0
        ∨ (solveSubPrimal inp ySol st).cutType = 1
        ∨ (solveSubPrimal inp ySol st).cutType = 2)
      ∧ ((solveSubPrimal inp ySol st).zSub = -1
        ∨ (solveSubPrimal inp ySol st).cutType = 2)) := by
  refine ⟨fun fk => ⟨rfl, rfl⟩, fun obj lam om eps => ⟨rfl, rfl⟩, ⟨rfl, rfl, rfl, rfl⟩,
    fun st => ?_⟩
  cases st <;> simp [solveSubPrimal]

/-- A fold of setRhs calls leaves untouched every label none of the calls
names. -/
theorem foldl_setRhs_not_mem {α : Type} (key : α → ConstrName) (val : α → ℚ) :
    ∀ (l : List α) (s : SubLPRhs) (n : ConstrName), (∀ x, x ∈ l → key x ≠ n) →
      l.foldl (fun s2 x => setRhs (key x) (val x) s2) s n = s n := by
  intro l
  induction l with
  | nil => intro s n _; rfl
  | cons b l ih =>
      intro s n hk
      simp only [List.foldl_cons]
      rw [ih _ n fun x hx => hk x (List.mem_cons_of_mem _ hx)]
      exact if_neg (Ne.symm (hk b (List.mem_cons_self b l)))

/-- A fold of setRhs calls whose labels determine the element ends with the
written value on a label that does get written. -/
theorem foldl_setRhs_mem {α : Type} (key : α → ConstrName) (val : α → ℚ) :
    ∀ (l : List α) (s : SubLPRhs) (x : α), x ∈ l → (∀ b, b ∈ l → key b = key x → b = x) →
      l.foldl (fun s2 z => setRhs (key z) (val z) s2) s (key x) = val x := by
  intro l
  induction l with
  | nil => intro s x hx; exact absurd hx (List.not_mem_nil x)
  | cons b l ih =>
      intro s x hx huniq
      simp only [List.foldl_cons]
      by_cases hxl : x ∈ l
      · exact ih _ x hxl fun b2 hb2 he => huniq b2 (List.mem_cons_of_mem _ hb2) he
      · have hxb : x = b := by
          rcases List.mem_cons.mp hx with hc | hc
          · exact hc
          · exact absurd hc hxl
        subst hxb
        rw [foldl_setRhs_not_mem key val l _ (key x) fun z hz hkz =>
          hxl ((huniq z (List.mem_cons_of_mem _ hz) hkz) ▸ hz)]
        exact if_pos rfl

/-- Membership in the logic triple list is exactly j < nI, t ≤ r < nP. -/
theorem mem_logicTriples (nI nP j t r : Nat) :
    (j, t, r) ∈ logicTriples nI nP ↔ j < nI ∧ t ≤ r ∧ r < nP := by
  constructor
  · intro hmem
    obtain ⟨j2, hj2, hmem2⟩ := List.mem_flatMap.mp hmem
    obtain ⟨t2, ht2, hmem3⟩ := List.mem_flatMap.mp hmem2
    obtain ⟨r2, hr2, he⟩ := List.mem_map.mp hmem3
    injection he with h1 hrest
    injection hrest with h2 h3
    subst h1
    subst h2
    subst h3
    have hb := List.mem_range'_1.mp hr2
    have ht := List.mem_range.mp ht2
    exact ⟨List.mem_range.mp hj2, hb.1, by omega⟩
  · rintro ⟨hj, htr, hr⟩
    refine List.mem_flatMap.mpr ⟨j, List.mem_range.mpr hj, ?_⟩
    refine List.mem_flatMap.mpr ⟨t, List.mem_range.mpr (by omega), ?_⟩
    exact List.mem_map.mpr ⟨r, List.mem_range'_1.mpr ⟨htr, by omega⟩, rfl⟩

/-- After the two update phases, capacity[t] carries the remaining capacity
for every period t of the model. -/
theorem updateSubRhs_capacity (inp : Instance) (ySol : Nat → Nat → ℚ) (s : SubLPRhs)
    (t : Nat) (ht : t < inp.nP) :
    updateSubRhs inp ySol s (ConstrName.capacity t)
      = inp.cap t - ∑ j ∈ Finset.range inp.nI, inp.m j t * ySol j t := by
  have h1 := foldl_setRhs_not_mem
    (fun (x : Nat × Nat × Nat) => ConstrName.logic x.1 x.2.1 x.2.2)
    (fun (x : Nat × Nat × Nat) => inp.d x.1 x.2.2 * ySol x.1 x.2.1)
    (logicTriples inp.nI inp.nP) (updateCapRhs inp ySol s) (ConstrName.capacity t)
    (fun _ _ h => ConstrName.noConfusion h)
  have h2 := foldl_setRhs_mem (fun (t2 : Nat) => ConstrName.capacity t2)
    (fun (t2 : Nat) => inp.cap t2 - ∑ j ∈ Finset.range inp.nI, inp.m j t2 * ySol j t2)
    (List.range inp.nP) s t (List.mem_range.mpr ht)
    (fun b _ he => by injection he)
  exact h1.trans h2

/-- After the two update phases, logic[j][t][r] carries d[j][r]*ySol[j][t]
for every triple of the model. -/
theorem updateSubRhs_logic (inp : Instance) (ySol : Nat → Nat → ℚ) (s : SubLPRhs)
    (j t r : Nat) (hj : j < inp.nI) (htr : t ≤ r) (hr : r < inp.nP) :
    updateSubRhs inp ySol s (ConstrName.logic j t r) = inp.d j r * ySol j t := by
  have h2 := foldl_setRhs_mem
    (fun (x : Nat × Nat × Nat) => ConstrName.logic x.1 x.2.1 x.2.2)
    (fun (x : Nat × Nat × Nat) => inp.d x.1 x.2.2 * ySol x.1 x.2.1)
    (logicTriples inp.nI inp.nP) (updateCapRhs inp ySol s) ((j, t, r) : Nat × Nat × Nat)
    ((mem_logicTriples inp.nI inp.nP j t r).mpr ⟨hj, htr, hr⟩)
    (fun b _ he => by
      obtain ⟨b1, b2, b3⟩ := b
      injection he with h1 h2 h3
      subst h1
      subst h2
      subst h3
      rfl)
  exact h2

/-- Neither update phase names a demand constraint, so every demand rhs is
left exactly as it was. -/
theorem updateSubRhs_demand (inp : Instance) (ySol : Nat → Nat → ℚ) (s : SubLPRhs)
    (j r : Nat) :
    updateSubRhs inp ySol s (ConstrName.demand j r) = s (ConstrName.demand j r) := by
  have h1 := foldl_setRhs_not_mem
    (fun (x : Nat × Nat × Nat) => ConstrName.logic x.1 x.2.1 x.2.2)
    (fun (x : Nat × Nat × Nat) => inp.d x.1 x.2.2 * ySol x.1 x.2.1)
    (logicTriples inp.nI inp.nP) (updateCapRhs inp ySol s) (ConstrName.demand j r)
    (fun _ _ h => ConstrName.noConfusion h)
  have h2 := foldl_setRhs_not_mem (fun (t2 : Nat) => ConstrName.capacity t2)
    (fun (t2 : Nat) => inp.cap t2 - ∑ j2 ∈ Finset.range inp.nI, inp.m j2 t2 * ySol j2 t2)
    (List.range inp.nP) s (ConstrName.demand j r)
    (fun _ _ h => ConstrName.noConfusion h)
  exact h1.trans h2

/-- Across any sequence of solveSubPrimal calls, a demand rhs never moves. -/
theorem foldl_call_demand (inp : Instance) (j r : Nat) :
    ∀ (calls : List ((Nat → Nat → ℚ) × (SubLPRhs → SubStatus))) (s : SubLPRhs),
      calls.foldl (fun s2 cl => (solveSubPrimalCall inp cl.1 s2 cl.2).1) s
        (ConstrName.demand j r) = s (ConstrName.demand j r) := by
  intro calls
  induction calls with
  | nil => intro s; rfl
  | cons cl cls ih =>
      intro s
      simp only [List.foldl_cons]
      rw [ih ((solveSubPrimalCall inp cl.1 s cl.2).1)]
      exact updateSubRhs_demand inp cl.1 s j r

/-- Claim C3: every solveSubPrimal call rewrites, before the solve, each
capacity[t] rhs to cap[t] - the setup consumption at ySol and each
logic[j][t][r] rhs (r >= t) to d[j][r]*ySol[j][t], and rewrites no demand
rhs, so the demand right-hand sides keep their construction values d[j][r]
across any sequence of calls. -/
theorem C3_rhs_reparameterization (inp : Instance) (ySol : Nat → Nat → ℚ) (s : SubLPRhs)
    (solver : SubLPRhs → SubStatus) (j t r : Nat) :
    (solveSubPrimalCall inp ySol s solver).1 = updateSubRhs inp ySol s
    ∧ (t < inp.nP →
        (solveSubPrimalCall inp ySol s solver).1 (ConstrName.capacity t)
          = inp.cap t - ∑ j2 ∈ Finset.range inp.nI, inp.m j2 t * ySol j2 t)
    ∧ (j < inp.nI → t ≤ r → r < inp.nP →
        (solveSubPrimalCall inp ySol s solver).1 (ConstrName.logic j t r)
          = inp.d j r * ySol j t)
    ∧ (solveSubPrimalCall inp ySol s solver).1 (ConstrName.demand j r)
        = s (ConstrName.demand j r)
    ∧ (∀ calls : List ((Nat → Nat → ℚ) × (SubLPRhs → SubStatus)),
        (calls.foldl (fun s2 cl => (solveSubPrimalCall inp cl.1 s2 cl.2).1)
            (initSubRhs inp)) (ConstrName.demand j r)
          = inp.d j r) := by
  refine ⟨rfl, fun ht => updateSubRhs_capacity inp ySol s t ht,
    fun hj htr hr => updateSubRhs_logic inp ySol s j t r hj htr hr,
    updateSubRhs_demand inp ySol s j r,
    fun calls => ?_⟩
  rw [foldl_call_demand inp j r calls (initSubRhs inp)]
  rfl

/-- Claim C4, corrected: the branch chain of newIOCycle. On a strict bound
improvement only bestLB is updated and the non-improvement counter is left
unchanged (the claim's reset to zero does not happen); otherwise, while the
counter is at most 5 it is incremented, and beyond that the loop instead
relaxes stabilization: stop if delta is already 0, else drive delta to 0
when lambda is 1, else raise lambda to 1, resetting the counter in the last
two cases. -/
theorem C4_bound_update (zLP : ℚ) (s : IOState) :
    (zLP > s.bestLB → boundUpdate zLP s = { s with bestLB := zLP })
    ∧ (zLP ≤ s.bestLB → s.noImprov ≤ 5 →
        boundUpdate zLP s = { s with noImprov := s.noImprov + 1 })
    ∧ (zLP ≤ s.bestLB → 5 < s.noImprov → s.delta = 0 →
        boundUpdate zLP s = { s with stopping := true })
    ∧ (zLP ≤ s.bestLB → 5 < s.noImprov → s.delta ≠ 0 → s.lam = 1 →
        boundUpdate zLP s = { s with delta := 0, noImprov := 0 })
    ∧ (zLP ≤ s.bestLB → 5 < s.noImprov → s.delta ≠ 0 → s.lam ≠ 1 →
        boundUpdate zLP s = { s with lam := 1, noImprov := 0 }) := by
  refine ⟨fun h1 => ?_, fun h1 h2 => ?_, fun h1 h2 h3 => ?_,
    fun h1 h2 h3 h4 => ?_, fun h1 h2 h3 h4 => ?_⟩
  · rw [boundUpdate, if_pos h1]
  · rw [boundUpdate, if_neg (not_lt.mpr h1), if_pos h2]
  · rw [boundUpdate, if_neg (not_lt.mpr h1), if_neg (not_le.mpr h2), if_pos h3]
  · rw [boundUpdate, if_neg (not_lt.mpr h1), if_neg (not_le.mpr h2), if_neg h3, if_pos h4]
  · rw [boundUpdate, if_neg (not_lt.mpr h1), if_neg (not_le.mpr h2), if_neg h3, if_neg h4]

/-- Claim C4, counterexample: run the loop on cexZs; after three
non-improving iterations the counter is 3, the fourth iteration improves the
bound (zLP = 1 > 0 = bestLB), yet the counter after that iteration is still
3, not the 0 the claim requires. -/
theorem C4_counterexample :
    (bdLoop cexZs 3).ioSt.bestLB < cexZs 3
    ∧ (bdLoop cexZs 3).ioSt.noImprov = 3
    ∧ (bdLoop cexZs 4).ioSt.noImprov = 3
    ∧ (bdLoop cexZs 4).ioSt.bestLB = cexZs 3 := by decide

/-- The loop never runs with delta = 0 but lambda still below 1: delta is
zeroed only in the branch guarded by lambda = 1, and lambda never leaves 1
again. -/
theorem bdLoop_delta_lam (zs : Nat → ℚ) :
    ∀ n, (bdLoop zs n).ioSt.delta = 0 → (bdLoop zs n).ioSt.lam = 1 := by
  intro n
  induction n with
  | zero =>
      intro h
      exact absurd h (by norm_num [bdLoop, bdInit, ioInit])
  | succ n ih =>
      intro h
      by_cases hstop : (bdLoop zs n).ioSt.stopping
      · rw [bdLoop, if_pos hstop] at h ⊢
        exact ih h
      · rw [bdLoop, if_neg hstop] at h ⊢
        rw [bdStep] at h ⊢
        simp only
        rw [boundUpdate] at h ⊢
        split_ifs at h ⊢ with h1 h2 h3 h4
        · exact ih h
        · exact ih h
        · exact ih h
        · exact h4
        · rfl

/-- Claim C5: the stabilized loop keeps the master continuous (intMode stays
false inside bdLoop); a transition into stopping can only happen from a
state with delta = 0 and lambda = 1 on an iteration whose zLP does not
improve the bound; and only the code after the loop (bendersDualSwitch)
turns the y variables binary. -/
theorem C5_stabilized_exit (zs : Nat → ℚ) (n fuel : Nat) :
    (bdLoop zs n).intMode = false
    ∧ ((bdLoop zs (n + 1)).ioSt.stopping = true →
        (bdLoop zs n).ioSt.stopping = true
        ∨ ((bdLoop zs n).ioSt.delta = 0 ∧ (bdLoop zs n).ioSt.lam = 1
            ∧ zs n ≤ (bdLoop zs n).ioSt.bestLB))
    ∧ (bendersDualSwitch zs fuel).intMode = true := by
  refine ⟨?_, ?_, rfl⟩
  · induction n with
    | zero => rfl
    | succ n ih =>
        by_cases hstop : (bdLoop zs n).ioSt.stopping
        · rw [bdLoop, if_pos hstop]
          exact ih
        · rw [bdLoop, if_neg hstop]
          exact ih
  · intro hs
    by_cases hstop : (bdLoop zs n).ioSt.stopping
    · exact Or.inl hstop
    · refine Or.inr ?_
      rw [bdLoop, if_neg hstop, bdStep] at hs
      simp only at hs
      rw [boundUpdate] at hs
      split_ifs at hs with h1 h2 h3 h4
      · exact absurd hs (by simpa using hstop)
      · exact absurd hs (by simpa using hstop)
      · exact ⟨h3, bdLoop_delta_lam zs n h3, not_lt.mp h1⟩
      · exact absurd hs (by simpa using hstop)
      · exact absurd hs (by simpa using hstop)

/-- An if that sets a flag and otherwise keeps it is the disjunction with the
condition. -/
theorem ite_true_orb (c : Prop) [Decidable c] (b : Bool) :
    (if c then true else b) = (decide c || b) := by
  by_cases h : c <;> simp [h]

/-- Claim C6: one Mode A iteration appends exactly the cut solveSubPrimal
built at the incumbent, records the master objective as the lower bound,
lowers the best upper bound to fixedSetupCost + zSub (fixedSetupCost being
the master objective minus zHat) exactly when an optimality cut produced a
smaller value, and raises the stopping flag exactly when the updated
ubBest - bestLB has fallen below _EPSI (machine epsilon); the while loop
advances by one such step while the flag is down and freezes once it is
up. -/
theorem C6_modeA_iteration (inp : Instance) (lb zHatV : ℚ) (ySol : Nat → Nat → ℚ)
    (st : SubStatus) (s : AState) (ins : Nat → ℚ × ℚ × (Nat → Nat → ℚ) × SubStatus)
    (n : Nat) :
    (modeAStep inp lb zHatV ySol st s).cuts
      = s.cuts ++ [((solveSubPrimal inp ySol st).cutLhs, (solveSubPrimal inp ySol st).cutRhs)]
    ∧ (modeAStep inp lb zHatV ySol st s).bestLB = lb
    ∧ (modeAStep inp lb zHatV ySol st s).ubBest
      = (if (solveSubPrimal inp ySol st).cutType = 2
          then min s.ubBest (lb - zHatV + (solveSubPrimal inp ySol st).zSub)
          else s.ubBest)
    ∧ (modeAStep inp lb zHatV ySol st s).stopping
      = (decide ((modeAStep inp lb zHatV ySol st s).ubBest - lb < epsiQ) || s.stopping)
    ∧ (modeAStep inp lb zHatV ySol st s).nIters = s.nIters + 1
    ∧ (modeAStep inp lb zHatV ySol st s).nrCuts = s.nrCuts + 1
    ∧ ((modeALoop inp ins n).stopping = false →
        modeALoop inp ins (n + 1)
          = modeAStep inp (ins n).1 (ins n).2.1 (ins n).2.2.1 (ins n).2.2.2
              (modeALoop inp ins n))
    ∧ ((modeALoop inp ins n).stopping = true →
        modeALoop inp ins (n + 1) = modeALoop inp ins n) := by
  have hunf : modeALoop inp ins (n + 1)
      = if (modeALoop inp ins n).stopping then modeALoop inp ins n
        else modeAStep inp (ins n).1 (ins n).2.1 (ins n).2.2.1 (ins n).2.2.2
          (modeALoop inp ins n) := rfl
  refine ⟨rfl, rfl, ?_, ?_, rfl, rfl, fun hf => ?_, fun ht => ?_⟩
  · show (if (solveSubPrimal inp ySol st).cutType = 2
        then if lb - zHatV + (solveSubPrimal inp ySol st).zSub < s.ubBest
          then lb - zHatV + (solveSubPrimal inp ySol st).zSub else s.ubBest
        else s.ubBest) = _
    by_cases h2 : (solveSubPrimal inp ySol st).cutType = 2
    · rw [if_pos h2, if_pos h2]
      by_cases hlt : lb - zHatV + (solveSubPrimal inp ySol st).zSub < s.ubBest
      · rw [if_pos hlt, min_eq_right hlt.le]
      · rw [if_neg hlt, min_eq_left (not_lt.mp hlt)]
    · rw [if_neg h2, if_neg h2]
  · exact ite_true_orb ((modeAStep inp lb zHatV ySol st s).ubBest - lb < epsiQ) s.stopping
  · rw [hunf, hf]
    simp
  · rw [hunf, ht]
    simp

/-- Claim C7 (the source's callback body, which cannot even parse, modelled
as intended): each callback invocation reads the incumbent and its bounds,
calls solveSubPrimal at that incumbent, injects the resulting cut with sense
"L" as a purging-eligible lazy constraint, updates the best-bound and
best-incumbent trackers to max and min respectively, bumps the iteration
counter, and never terminates the search. -/
theorem C7_callback_step (inp : Instance) (objMaster lb zHatV : ℚ)
    (ySol : Nat → Nat → ℚ) (st : SubStatus) (s : CBState) :
    (callbackStep inp objMaster lb zHatV ySol st s).2.2 = false
    ∧ (callbackStep inp objMaster lb zHatV ySol st s).2.1.lhs
      = (solveSubPrimal inp ySol st).cutLhs
    ∧ (callbackStep inp objMaster lb zHatV ySol st s).2.1.sense = CutSense.le
    ∧ (callbackStep inp objMaster lb zHatV ySol st s).2.1.rhs
      = (solveSubPrimal inp ySol st).cutRhs
    ∧ (callbackStep inp objMaster lb zHatV ySol st s).2.1.purgeable = true
    ∧ (callbackStep inp objMaster lb zHatV ySol st s).1.bestLB = max s.bestLB lb
    ∧ (callbackStep inp objMaster lb zHatV ySol st s).1.bestUB = min s.bestUB objMaster
    ∧ (callbackStep inp objMaster lb zHatV ySol st s).1.nIter = s.nIter + 1 := by
  refine ⟨rfl, rfl, rfl, rfl, rfl, ?_, ?_, rfl⟩
  · show (if lb > s.bestLB then lb else s.bestLB) = max s.bestLB lb
    by_cases h : lb > s.bestLB
    · rw [if_pos h, max_eq_right h.le]
    · rw [if_neg h, max_eq_left (not_lt.mp h)]
  · show (if objMaster < s.bestUB then objMaster else s.bestUB) = min s.bestUB objMaster
    by_cases h : objMaster < s.bestUB
    · rw [if_pos h, min_eq_right h.le]
    · rw [if_neg h, min_eq_left (not_lt.mp h)]

/-- The backward accumulator holds suffix sums: entry k is the sum of the
demands of the last k+1 periods. -/
theorem dcumAux_eq (inp : Instance) (j : Nat) :
    ∀ k, k < inp.nP →
      dcumAux inp j k = ∑ r ∈ Finset.Ico (inp.nP - 1 - k) inp.nP, inp.d j r := by
  intro k
  induction k with
  | zero =>
      intro hk
      have hico : Finset.Ico (inp.nP - 1 - 0) inp.nP = {inp.nP - 1} := by
        ext x
        simp only [Finset.mem_Ico, Finset.mem_singleton]
        omega
      rw [hico, Finset.sum_singleton]
      rfl
  | succ k ih =>
      intro hk
      have h2 : inp.nP - 1 - (k + 1) = inp.nP - 2 - k := by omega
      have h3 : inp.nP - 2 - k < inp.nP := by omega
      have h4 : inp.nP - 2 - k + 1 = inp.nP - 1 - k := by omega
      rw [h2, Finset.sum_eq_sum_Ico_succ_bot h3, h4, ← ih (by omega)]
      rw [dcumAux]
      ring

/-- The reversed accumulator read at position t is the cumulative demand
from t to the horizon. -/
theorem dcum_eq (inp : Instance) (j t : Nat) (ht : t < inp.nP) :
    dcum inp j t = ∑ r ∈ Finset.Ico t inp.nP, inp.d j r := by
  rw [dcum, dcumAux_eq inp j (inp.nP - 1 - t) (by omega),
    show inp.nP - 1 - (inp.nP - 1 - t) = t by omega]

/-- Claim C8, corrected: dcum[j][t] is the suffix demand sum, hence (with
nonnegative demands) nonincreasing and nonnegative in t, and max_prod[j][t]
is the stated minimum; its nonnegativity however additionally needs the
setup consumption m[j][t] not to exceed the capacity cap[t] (with a positive
usage coefficient a[j][t]), which no nonnegativity of demands provides. -/
theorem C8_instance_invariants (inp : Instance) :
    (∀ j t, j < inp.nI → t < inp.nP →
      dcum inp j t = ∑ r ∈ Finset.Ico t inp.nP, inp.d j r)
    ∧ (∀ j t, j < inp.nI → t + 1 < inp.nP →
        (∀ j2 t2, j2 < inp.nI → t2 < inp.nP → 0 ≤ inp.d j2 t2) →
        dcum inp j (t + 1) ≤ dcum inp j t ∧ 0 ≤ dcum inp j (t + 1))
    ∧ (∀ j t, j < inp.nI → t < inp.nP →
        max_prod inp j t = min ((inp.cap t - inp.m j t) / inp.a j t) (dcum inp j t))
    ∧ (∀ j t, j < inp.nI → t < inp.nP → 0 < inp.a j t → inp.m j t ≤ inp.cap t →
        (∀ j2 t2, j2 < inp.nI → t2 < inp.nP → 0 ≤ inp.d j2 t2) →
        0 ≤ max_prod inp j t) := by
  have hnn : ∀ j t, j < inp.nI → t < inp.nP →
      (∀ j2 t2, j2 < inp.nI → t2 < inp.nP → 0 ≤ inp.d j2 t2) → 0 ≤ dcum inp j t := by
    intro j t hj ht hd
    rw [dcum_eq inp j t ht]
    refine Finset.sum_nonneg fun r hr => ?_
    exact hd j r hj (Finset.mem_Ico.mp hr).2
  refine ⟨fun j t hj ht => dcum_eq inp j t ht, fun j t hj ht hd => ?_,
    fun j t hj ht => rfl, fun j t hj ht ha hm hd => ?_⟩
  · constructor
    · rw [dcum_eq inp j t (by omega), dcum_eq inp j (t + 1) ht,
        Finset.sum_eq_sum_Ico_succ_bot (show t < inp.nP by omega)]
      have h0 : 0 ≤ inp.d j t := hd j t hj (by omega)
      linarith
    · exact hnn j (t + 1) hj ht hd
  · rw [max_prod]
    refine le_min ?_ (hnn j t hj ht hd)
    exact div_nonneg (by linarith) ha.le

/-- Claim C8, counterexample: in cexInp all demands are nonnegative (the
only one is 0), yet max_prod[0][0] = min((0-1)/1, 0) = -1 is negative. -/
theorem C8_counterexample : 0 ≤ cexInp.d 0 0 ∧ max_prod cexInp 0 0 < 0 := by
  constructor
  · norm_num [cexInp]
  · have h1 : (cexInp.cap 0 - cexInp.m 0 0) / cexInp.a 0 0 = -1 := by
      norm_num [cexInp]
    have h2 : dcum cexInp 0 0 = 0 := by
      norm_num [dcum, dcumAux, cexInp]
    rw [max_prod, h1, h2, min_def]
    norm_num

/-- Shared shape of the z-variable and logic-constraint walks: j outer, then
t, then r over range(t, nP). -/
theorem halfTri_triangular (nI nP : Nat) :
    halfTri nP ((List.range nI).flatMap fun j =>
      (List.range nP).flatMap fun t =>
        (List.range' t (nP - t)).map fun r => (j, t, r)) = true := by
  rw [halfTri, List.all_eq_true]
  intro x hx
  obtain ⟨j, hj, hx2⟩ := List.mem_flatMap.mp hx
  obtain ⟨t, ht, hx3⟩ := List.mem_flatMap.mp hx2
  obtain ⟨r, hr, he⟩ := List.mem_map.mp hx3
  subst he
  have hb := List.mem_range'_1.mp hr
  have ht2 := List.mem_range.mp ht
  simp only [decide_eq_true_eq]
  omega

/-- Shape of the capacity-constraint walk: t outer, then j, then r over
range(t, nP). -/
theorem halfTri_capacity (nI nP : Nat) :
    halfTri nP ((List.range nP).flatMap fun t =>
      (List.range nI).flatMap fun j =>
        (List.range' t (nP - t)).map fun r => (j, t, r)) = true := by
  rw [halfTri, List.all_eq_true]
  intro x hx
  obtain ⟨t, ht, hx2⟩ := List.mem_flatMap.mp hx
  obtain ⟨j, hj, hx3⟩ := List.mem_flatMap.mp hx2
  obtain ⟨r, hr, he⟩ := List.mem_map.mp hx3
  subst he
  have hb := List.mem_range'_1.mp hr
  have ht2 := List.mem_range.mp ht
  simp only [decide_eq_true_eq]
  omega

/-- Shape of the demand-constraint walk: j outer, then r, then t over
range(r+1). -/
theorem halfTri_demand (nI nP : Nat) :
    halfTri nP ((List.range nI).flatMap fun j =>
      (List.range nP).flatMap fun r =>
        (List.range (r + 1)).map fun t => (j, t, r)) = true := by
  rw [halfTri, List.all_eq_true]
  intro x hx
  obtain ⟨j, hj, hx2⟩ := List.mem_flatMap.mp hx
  obtain ⟨r, hr, hx3⟩ := List.mem_flatMap.mp hx2
  obtain ⟨t, ht, he⟩ := List.mem_map.mp hx3
  subst he
  have ht2 := List.mem_range.mp ht
  have hr2 := List.mem_range.mp hr
  simp only [decide_eq_true_eq]
  omega

/-- Claim C9: every z index (j, t, r) that WorkerLPPrimal or MIPReformulation
constructs or references satisfies t ≤ r < nP, so the half-triangular access
z_ilo[j][t][r-t] is always within the row of length nP - t and no variable
with r < t ever exists or is touched. -/
theorem C9_triangular_index (nI nP : Nat) :
    halfTri nP (workerZVars nI nP) = true
    ∧ halfTri nP (workerCapacityRefs nI nP) = true
    ∧ halfTri nP (workerDemandRefs nI nP) = true
    ∧ halfTri nP (workerLogicRefs nI nP) = true
    ∧ halfTri nP (mipZVars nI nP) = true
    ∧ halfTri nP (mipCapacityRefs nI nP) = true
    ∧ halfTri nP (mipDemandRefs nI nP) = true
    ∧ halfTri nP (mipLogicRefs nI nP) = true :=
  ⟨halfTri_triangular nI nP, halfTri_capacity nI nP, halfTri_demand nI nP,
    halfTri_triangular nI nP, halfTri_triangular nI nP, halfTri_capacity nI nP,
    halfTri_demand nI nP, halfTri_triangular nI nP⟩

end BendersLS
